import Mathlib

/-!
Verification of the elevation-gain estimator and calibration harness of the
FitbitDataReader repository.  The numeric core is translated from
`elevation_with_params` in `optimize_all_7_cases.py` (smoothing, adaptive
threshold selection, climb state machine); the calibration harness is
translated from the search loop of the same file; the string-level pipeline
(regex extraction of `<AltitudeMeters>` values, float conversion, `try/except`
fallback to 0.0) is translated from `elevation_with_params` and from
`elevation_gain_from_tcx` in `db_filler.py`.  Python floats are modelled as
exact rationals.
-/

namespace Fitbit

/-- Python list slice `l[a:b]`: the elements at indices `a, ..., b-1`. -/
def pySlice (l : List ℚ) (a b : ℕ) : List ℚ :=
  (l.drop a).take (b - a)

/-- The smoothing loop of `elevation_with_params`:
`smoothed[i]` is the mean of `alts[max(0, i - W//2) : min(len(alts), i + W//2 + 1)]`.
(Natural-number subtraction `i - W / 2` is the `max(0, ...)` clip.) -/
def smooth (alts : List ℚ) (W : ℕ) : List ℚ :=
  (List.range alts.length).map (fun i =>
    (pySlice alts (i - W / 2) (min alts.length (i + W / 2 + 1))).sum /
      ((pySlice alts (i - W / 2) (min alts.length (i + W / 2 + 1))).length : ℚ))

/-- Python `max` on a list (only ever applied to nonempty lists in the source). -/
def pyMax (l : List ℚ) : ℚ :=
  match l with
  | [] => 0
  | x :: xs => xs.foldl max x

/-- Python `min` on a list (only ever applied to nonempty lists in the source). -/
def pyMin (l : List ℚ) : ℚ :=
  match l with
  | [] => 0
  | x :: xs => xs.foldl min x

/-- The adaptive-threshold selection of `elevation_with_params`:
`alt_range = max(alts) - min(alts)`; `if alt_range < range1: thresh1
elif alt_range < 100: thresh2 else: thresh3`. -/
def selectThreshold (alts : List ℚ) (range1 t1 t2 t3 : ℚ) : ℚ :=
  if pyMax alts - pyMin alts < range1 then t1
  else if pyMax alts - pyMin alts < 100 then t2
  else t3

/-- The climb-tracking loop of `elevation_with_params`, one constructor per
loop iteration over `smoothed[1:]`; the `[]` case is the post-loop
`if in_climb:` finalization.  State: accumulated `total_gain`, the `in_climb`
flag, `climb_start`, `climb_peak`, `prev_alt`. -/
def gainGo (th : ℚ) (total : ℚ) (inClimb : Bool) (start peak prev : ℚ) :
    List ℚ → ℚ
  | [] =>
      if inClimb then
        if peak - start ≥ th then total + (peak - start) else total
      else total
  | alt :: rest =>
      if alt > prev then
        if inClimb then gainGo th total true start (max peak alt) alt rest
        else gainGo th total true prev alt alt rest
      else if alt < prev then
        if inClimb then
          gainGo th (if peak - start ≥ th then total + (peak - start) else total)
            false start peak alt rest
        else gainGo th total false start peak alt rest
      else gainGo th total inClimb start peak alt rest

/-- The numeric body of `elevation_with_params` applied to an already-parsed
altitude list: the `len < 2` guard, smoothing, adaptive threshold, climb loop.
The state is initialized from `smoothed[0]` and the loop runs over
`smoothed[1:]`. -/
def elevationFromAlts (alts : List ℚ) (W : ℕ) (range1 t1 t2 t3 : ℚ) : ℚ :=
  if alts = [] ∨ alts.length < 2 then 0
  else
    gainGo (selectThreshold alts range1 t1 t2 t3) 0 false
      ((smooth alts W).headD 0) ((smooth alts W).headD 0) ((smooth alts W).headD 0)
      ((smooth alts W).tail)

/-- The same state machine as `gainGo`, but recording the climbs it emits
(as `(start, peak)` pairs) instead of summing thresholded gains: a climb is
emitted when a descent ends it, or at end of trace while still in a climb. -/
def climbsGo (inClimb : Bool) (start peak prev : ℚ) : List ℚ → List (ℚ × ℚ)
  | [] => if inClimb then [(start, peak)] else []
  | alt :: rest =>
      if alt > prev then
        if inClimb then climbsGo true start (max peak alt) alt rest
        else climbsGo true prev alt alt rest
      else if alt < prev then
        if inClimb then (start, peak) :: climbsGo false start peak alt rest
        else climbsGo false start peak alt rest
      else climbsGo inClimb start peak alt rest

/-- The climbs the segmenter emits while scanning a smoothed trace. -/
def climbs (smoothed : List ℚ) : List (ℚ × ℚ) :=
  climbsGo false (smoothed.headD 0) (smoothed.headD 0) (smoothed.headD 0)
    smoothed.tail

/-- Net gain of a climb: peak minus start. -/
def climbGain (c : ℚ × ℚ) : ℚ := c.2 - c.1

/-- The climbs whose gain clears the threshold (`climb_gain >= threshold_meters`). -/
def countedClimbs (th : ℚ) (cs : List (ℚ × ℚ)) : List (ℚ × ℚ) :=
  cs.filter (fun c => decide (th ≤ climbGain c))

/-- Total gain over the counted climbs. -/
def countedSum (th : ℚ) (cs : List (ℚ × ℚ)) : ℚ :=
  ((countedClimbs th cs).map climbGain).sum

/-- The spec's band lookup, following its words: an ordered linear scan of the
breakpoints; the first breakpoint the range is strictly less than determines
the threshold, and past all breakpoints the last threshold applies (the
threshold list is one longer than the breakpoint list). -/
def bandLookup : List ℚ → List ℚ → ℚ → ℚ
  | b :: bps, t :: ts, r => if r < b then t else bandLookup bps ts r
  | _, ts, _ => ts.headD 0

/-- The worked-example trace of the spec (section 8). -/
def exampleTrace : List ℚ := [100, 105, 110, 103, 101, 112, 120]

/-- The smoothing contract exactly as the spec words it: element `i` is the
arithmetic mean of the samples whose indices lie in the half-open interval
`[i - W/2, i + W/2)` (with `W/2` the exact rational half), clipped to the
valid index range. -/
def specWindowHalfOpen (alts : List ℚ) (W : ℕ) (i : ℕ) : List ℚ :=
  ((List.range alts.length).filter
      (fun (j : ℕ) => decide ((i : ℚ) - (W : ℚ) / 2 ≤ (j : ℚ) ∧
        (j : ℚ) < (i : ℚ) + (W : ℚ) / 2))).map (fun j => alts.getD j 0)

/-- The smoothing contract exactly as the spec words it, elementwise over
`specWindowHalfOpen`. -/
def smoothSpecHalfOpen (alts : List ℚ) (W : ℕ) : List ℚ :=
  (List.range alts.length).map (fun i =>
    (specWindowHalfOpen alts W i).sum / ((specWindowHalfOpen alts W i).length : ℚ))

/-- The amended smoothing contract: element `i` is the arithmetic mean of the
samples whose indices lie in the closed interval `[i - W/2, i + W/2]` with
`W/2` rounded down (natural-number subtraction clips the left end at 0, and
restricting to valid indices clips the right end). -/
def incWindow (alts : List ℚ) (W : ℕ) (i : ℕ) : List ℚ :=
  ((List.range alts.length).filter
      (fun j => decide (i - W / 2 ≤ j ∧ j ≤ i + W / 2))).map
    (fun j => alts.getD j 0)

/-- The amended smoothing contract, elementwise over `incWindow`. -/
def smoothWindowInc (alts : List ℚ) (W : ℕ) : List ℚ :=
  (List.range alts.length).map (fun i =>
    (incWindow alts W i).sum / ((incWindow alts W i).length : ℚ))

/-- The characters of the literal `<AltitudeMeters>` in the extraction regex. -/
def openTagChars : List Char :=
  ['<', 'A', 'l', 't', 'i', 't', 'u', 'd', 'e', 'M', 'e', 't', 'e', 'r', 's', '>']

/-- The characters of the closing literal `</AltitudeMeters>`. -/
def closeTagChars : List Char :=
  ['<', '/', 'A', 'l', 't', 'i', 't', 'u', 'd', 'e', 'M', 'e', 't', 'e', 'r', 's', '>']

/-- Whether a character sequence matches the regex group
`[-+]?[0-9]*\.?[0-9]+` in full: after an optional sign, either digits only,
or (possibly empty) digits, a dot, and at least one digit. -/
def numBody (cs : List Char) : Bool :=
  if (cs.dropWhile Char.isDigit).isEmpty then
    !(cs.takeWhile Char.isDigit).isEmpty
  else if (cs.dropWhile Char.isDigit).headD ' ' = '.' then
    !(cs.dropWhile Char.isDigit).tail.isEmpty &&
      (cs.dropWhile Char.isDigit).tail.all Char.isDigit
  else false

/-- `numBody` after stripping an optional leading sign. -/
def numOk (cs : List Char) : Bool :=
  if cs.headD ' ' = '+' then numBody cs.tail
  else if cs.headD ' ' = '-' then numBody cs.tail
  else numBody cs

/-- Value of a digit string as a natural number. -/
def digitsVal (ds : List Char) : ℕ :=
  ds.foldl (fun a c => 10 * a + (c.toNat - 48)) 0

/-- Python `float` on an unsigned decimal string, modelled as a fallible
operation: `none` on anything that is not `digits`, `digits.digits`, or
`.digits`. -/
def floatBody? (sg : ℚ) (cs : List Char) : Option ℚ :=
  if (cs.dropWhile Char.isDigit).isEmpty then
    if (cs.takeWhile Char.isDigit).isEmpty then none
    else some (sg * (digitsVal (cs.takeWhile Char.isDigit) : ℚ))
  else if (cs.dropWhile Char.isDigit).headD ' ' = '.' then
    if (cs.dropWhile Char.isDigit).tail.isEmpty ||
        !(cs.dropWhile Char.isDigit).tail.all Char.isDigit then none
    else
      some (sg * ((digitsVal (cs.takeWhile Char.isDigit) : ℚ) +
        (digitsVal ((cs.dropWhile Char.isDigit).tail) : ℚ) /
          (10 : ℚ) ^ ((cs.dropWhile Char.isDigit).tail.length)))
  else none

/-- Python `float` on a possibly signed decimal string. -/
def floatOfStr? (cs : List Char) : Option ℚ :=
  if cs.headD ' ' = '+' then floatBody? 1 cs.tail
  else if cs.headD ' ' = '-' then floatBody? (-1) cs.tail
  else floatBody? 1 cs

/-- `re.findall` of `<AltitudeMeters>([-+]?[0-9]*\.?[0-9]+)</AltitudeMeters>`:
scan left to right; at a position where the opening literal matches, the
group must match the whole text up to the next `<` (the group's characters
never include `<`) and the closing literal must follow immediately.  On a
match, emit the group and resume after the closing literal; otherwise advance
one character. -/
def findAlts : List Char → List (List Char)
  | [] => []
  | c :: rest =>
      if openTagChars.isPrefixOf (c :: rest) then
        if numOk (((c :: rest).drop openTagChars.length).takeWhile
              (fun ch => ch ≠ '<')) &&
            closeTagChars.isPrefixOf (((c :: rest).drop openTagChars.length).dropWhile
              (fun ch => ch ≠ '<')) then
          (((c :: rest).drop openTagChars.length).takeWhile (fun ch => ch ≠ '<')) ::
            findAlts ((((c :: rest).drop openTagChars.length).dropWhile
              (fun ch => ch ≠ '<')).drop closeTagChars.length)
        else findAlts rest
      else findAlts rest
termination_by l => l.length
decreasing_by
  · have h1 : (((c :: rest).drop openTagChars.length).dropWhile
        (fun ch => ch ≠ '<')).length ≤ ((c :: rest).drop openTagChars.length).length :=
      (List.dropWhile_suffix _).length_le
    have h2 := List.length_drop openTagChars.length (c :: rest)
    have h3 := List.length_drop closeTagChars.length
      (((c :: rest).drop openTagChars.length).dropWhile (fun ch => ch ≠ '<'))
    have h4 : openTagChars.length = 16 := rfl
    simp only [List.length_cons] at *
    omega
  · simp only [List.length_cons]
    omega
  · simp only [List.length_cons]
    omega

/-- `[float(x) for x in re.findall(...)]`: `none` if any conversion fails. -/
def parseAlts? (xml : String) : Option (List ℚ) :=
  (findAlts xml.data).mapM floatOfStr?

/-- The body of the `try:` block of `elevation_with_params`, operating on the
raw XML text. -/
def elevationBody (xml : String) (W : ℕ) (range1 t1 t2 t3 : ℚ) : Option ℚ :=
  (parseAlts? xml).map (fun alts => elevationFromAlts alts W range1 t1 t2 t3)

/-- `elevation_with_params` including its `try/except: return 0.0` wrapper. -/
def elevation_with_params (xml : String) (W : ℕ) (range1 t1 t2 t3 : ℚ) : ℚ :=
  match elevationBody xml W range1 t1 t2 t3 with
  | some g => g
  | none => 0

/-- The delta-summing loop of `db_filler.py`'s `elevation_gain_from_tcx`:
`delta = a - prev; if delta > 0: gain += delta`. -/
def posDeltaGo (gain prev : ℚ) : List ℚ → ℚ
  | [] => gain
  | a :: rest =>
      posDeltaGo (if a - prev > 0 then gain + (a - prev) else gain) a rest

/-- The body of the `try:` block of `db_filler.py`'s `elevation_gain_from_tcx`. -/
def elevationGainBody (xml : String) : Option ℚ :=
  (parseAlts? xml).map (fun alts =>
    if alts = [] then 0 else posDeltaGo 0 (alts.headD 0) alts.tail)

/-- `db_filler.py`'s `elevation_gain_from_tcx` including its
`try/except: return 0.0` wrapper. -/
def elevation_gain_from_tcx (xml : String) : ℚ :=
  match elevationGainBody xml with
  | some g => g
  | none => 0

/-- One estimator configuration of the calibration harness:
`(window_size, range1, thresh1, thresh2, thresh3)`. -/
structure Config where
  w : ℕ
  r1 : ℚ
  t1 : ℚ
  t2 : ℚ
  t3 : ℚ
deriving DecidableEq

/-- Per-case error of the search loop:
`abs((result - target) / target) * 100` where `result = elev_m * 3.28084`. -/
def caseError (cfg : Config) (tc : String × ℚ) : ℚ :=
  |(elevation_with_params tc.1 cfg.w cfg.r1 cfg.t1 cfg.t2 cfg.t3 * (3.28084 : ℚ)
      - tc.2) / tc.2| * 100

/-- `avg_error = sum(errors) / len(errors)` over the labeled cases. -/
def avgError (cases : List (String × ℚ)) (cfg : Config) : ℚ :=
  (cases.map (caseError cfg)).sum / ((cases.map (caseError cfg)).length : ℚ)

/-- One iteration of the search loop: `if avg_error < best_error:` update the
best parameters.  `none` models the initial `best_error = float('inf')`,
`best_params = None` state, which any finite average beats. -/
def searchStep (cases : List (String × ℚ)) (best : Option (Config × ℚ))
    (cfg : Config) : Option (Config × ℚ) :=
  match best with
  | none => some (cfg, avgError cases cfg)
  | some (bc, be) =>
      if avgError cases cfg < be then some (cfg, avgError cases cfg)
      else some (bc, be)

/-- The full search loop of `optimize_all_7_cases.py`: fold `searchStep` over
the enumeration of configurations. -/
def searchBest (cases : List (String × ℚ)) (configs : List Config) :
    Option (Config × ℚ) :=
  configs.foldl (searchStep cases) none

/-- The search loop after the first configuration has been accepted
(`best_error` finite): used to reason about `searchBest` by recursion. -/
def searchGo (cases : List (String × ℚ)) (acc : Config × ℚ) :
    List Config → Config × ℚ
  | [] => acc
  | cfg :: rest =>
      searchGo cases
        (if avgError cases cfg < acc.2 then (cfg, avgError cases cfg) else acc)
        rest

/-- The Cartesian product of the five parameter lists, enumerated in the
nesting order of the source's loops (window, range1, thresh1, thresh2,
thresh3). -/
def allConfigs (ws : List ℕ) (r1s t1s t2s t3s : List ℚ) : List Config :=
  ws.flatMap fun w => r1s.flatMap fun r1 => t1s.flatMap fun t1 =>
    t2s.flatMap fun t2 => t3s.map fun t3 => ⟨w, r1, t1, t2, t3⟩

end Fitbit

namespace Fitbit

set_option maxRecDepth 8000 in
/-- Sanity evaluation: the extraction model on a string with two tagged
altitude values. -/
theorem parseAlts_two_values :
    parseAlts? "<AltitudeMeters>12.5</AltitudeMeters>x<AltitudeMeters>-3</AltitudeMeters>"
      = some [25 / 2, -3] := by
  with_unfolding_all decide

set_option maxRecDepth 8000 in
/-- Sanity evaluation: text without altitude tags parses to the empty list. -/
theorem parseAlts_no_tags : parseAlts? "hello <no tags>" = some [] := by
  with_unfolding_all decide

/-- Sanity evaluation: the estimator returns 0 (normally) on the empty string. -/
theorem elevation_empty_string : elevation_with_params "" 30 85 9 10 14 = 0 := by
  with_unfolding_all decide

end Fitbit

namespace Fitbit

theorem countedSum_nil (th : ℚ) : countedSum th [] = 0 := rfl

theorem countedSum_cons (th : ℚ) (c : ℚ × ℚ) (cs : List (ℚ × ℚ)) :
    countedSum th (c :: cs)
      = (if th ≤ climbGain c then climbGain c else 0) + countedSum th cs := by
  by_cases h : th ≤ climbGain c
  · simp [countedSum, countedClimbs, List.filter_cons, h]
  · simp [countedSum, countedClimbs, List.filter_cons, h]

theorem gainGo_eq (l : List ℚ) : ∀ (th total : ℚ) (b : Bool) (start peak prev : ℚ),
    gainGo th total b start peak prev l
      = total + countedSum th (climbsGo b start peak prev l) := by
  induction l with
  | nil =>
      intro th total b start peak prev
      cases b with
      | false => simp [gainGo, climbsGo, countedSum_nil]
      | true =>
          simp only [gainGo, climbsGo, if_true, countedSum_cons, countedSum_nil,
            climbGain, ge_iff_le]
          split_ifs <;> ring
  | cons alt rest ih =>
      intro th total b start peak prev
      by_cases h1 : alt > prev
      · cases b with
        | true => simp only [gainGo, climbsGo, if_pos h1, if_true]; exact ih ..
        | false => simp only [gainGo, climbsGo, if_pos h1, if_false]; exact ih ..
      · by_cases h2 : alt < prev
        · cases b with
          | true =>
              simp only [gainGo, climbsGo, if_neg h1, if_pos h2, if_true,
                countedSum_cons, climbGain, ge_iff_le]
              rw [ih]
              split_ifs <;> ring
          | false =>
              simp only [gainGo, climbsGo, if_neg h1, if_pos h2, if_false]
              exact ih ..
        · simp only [gainGo, climbsGo, if_neg h1, if_neg h2]
          exact ih ..

theorem elevation_eq_countedSum (alts : List ℚ) (W : ℕ) (r1 t1 t2 t3 : ℚ)
    (h : 2 ≤ alts.length) :
    elevationFromAlts alts W r1 t1 t2 t3
      = countedSum (selectThreshold alts r1 t1 t2 t3) (climbs (smooth alts W)) := by
  have hne : ¬(alts = [] ∨ alts.length < 2) := by
    rintro (rfl | hlen)
    · simp at h
    · omega
  rw [elevationFromAlts, if_neg hne, gainGo_eq, zero_add]
  rfl

theorem selectThreshold_const (alts : List ℚ) (r1 t : ℚ) :
    selectThreshold alts r1 t t t = t := by
  unfold selectThreshold
  split_ifs <;> rfl

theorem selectThreshold_le (alts : List ℚ) (r1 t1 t2 t3 u1 u2 u3 : ℚ)
    (h1 : t1 ≤ u1) (h2 : t2 ≤ u2) (h3 : t3 ≤ u3) :
    selectThreshold alts r1 t1 t2 t3 ≤ selectThreshold alts r1 u1 u2 u3 := by
  unfold selectThreshold
  split_ifs <;> assumption

theorem climbsGo_pos (l : List ℚ) : ∀ (b : Bool) (s p pr : ℚ),
    (b = true → s < p) → ∀ c ∈ climbsGo b s p pr l, c.1 < c.2 := by
  induction l with
  | nil =>
      intro b s p pr hb c hc
      cases b with
      | true =>
          simp only [climbsGo, if_true, List.mem_singleton] at hc
          subst hc
          exact hb rfl
      | false => simp [climbsGo] at hc
  | cons alt rest ih =>
      intro b s p pr hb c hc
      by_cases h1 : alt > pr
      · cases b with
        | true =>
            simp only [climbsGo, if_pos h1, if_true] at hc
            exact ih true s (max p alt) alt
              (fun _ => lt_of_lt_of_le (hb rfl) (le_max_left p alt)) c hc
        | false =>
            simp only [climbsGo, if_pos h1, if_false] at hc
            exact ih true pr alt alt (fun _ => h1) c hc
      · by_cases h2 : alt < pr
        · cases b with
          | true =>
              simp only [climbsGo, if_neg h1, if_pos h2, if_true,
                List.mem_cons] at hc
              rcases hc with rfl | hc
              · exact hb rfl
              · exact ih false s p alt (fun h => nomatch h) c hc
          | false =>
              simp only [climbsGo, if_neg h1, if_pos h2, if_false] at hc
              exact ih false s p alt (fun h => nomatch h) c hc
        · simp only [climbsGo, if_neg h1, if_neg h2] at hc
          exact ih b s p alt hb c hc

theorem climbs_pos (smoothed : List ℚ) : ∀ c ∈ climbs smoothed, c.1 < c.2 :=
  climbsGo_pos _ false _ _ _ (fun h => nomatch h)

theorem countedSum_anti (th th' : ℚ) (h : th ≤ th') (cs : List (ℚ × ℚ))
    (hpos : ∀ c ∈ cs, 0 < climbGain c) :
    countedSum th' cs ≤ countedSum th cs := by
  induction cs with
  | nil => simp [countedSum_nil]
  | cons c rest ih =>
      have hc : 0 < climbGain c := hpos c (List.mem_cons_self c rest)
      have hrest := ih (fun x hx => hpos x (List.mem_cons_of_mem c hx))
      rw [countedSum_cons, countedSum_cons]
      split_ifs with ha hb hb <;> linarith

end Fitbit

namespace Fitbit

theorem rangeFilterInterval (n a b : ℕ) :
    (List.range n).filter (fun j => decide (a ≤ j ∧ j ≤ b))
      = List.range' a (min n (b + 1) - a) := by
  induction n with
  | zero => simp
  | succ n ih =>
      rw [List.range_succ, List.filter_append, ih]
      by_cases h : a ≤ n ∧ n ≤ b
      · have e1 : min (n + 1) (b + 1) - a = (n - a) + 1 := by omega
        have e2 : min n (b + 1) - a = n - a := by omega
        rw [e1, e2, List.range'_concat]
        simp [h]
      · have e : min (n + 1) (b + 1) - a = min n (b + 1) - a := by omega
        rw [e]
        simp [h]

theorem mapGetDRange' (m : ℕ) : ∀ (a : ℕ) (l : List ℚ), a + m ≤ l.length →
    (List.range' a m).map (fun j => l.getD j 0) = (l.drop a).take m := by
  induction m with
  | zero => intro a l h; simp
  | succ m ih =>
      intro a l h
      have ha : a < l.length := by omega
      rw [List.range'_succ, List.map_cons, List.drop_eq_getElem_cons ha,
        List.take_succ_cons, List.getD_eq_getElem l 0 ha, ih (a + 1) l (by omega)]

theorem smooth_eq_windowInc (alts : List ℚ) (W : ℕ) :
    smooth alts W = smoothWindowInc alts W := by
  unfold smooth smoothWindowInc
  apply List.map_congr_left
  intro i hi
  rw [List.mem_range] at hi
  have hw : incWindow alts W i
      = pySlice alts (i - W / 2) (min alts.length (i + W / 2 + 1)) := by
    unfold incWindow pySlice
    rw [rangeFilterInterval, mapGetDRange']
    omega
  rw [hw]

theorem smooth_length (alts : List ℚ) (W : ℕ) :
    (smooth alts W).length = alts.length := by
  simp [smooth]

theorem smooth_one (alts : List ℚ) : smooth alts 1 = alts := by
  apply List.ext_getElem
  · exact smooth_length alts 1
  · intro i h1 h2
    simp only [smooth, List.getElem_map, List.getElem_range, pySlice]
    norm_num
    have hmin : min alts.length (i + 1) = i + 1 := by omega
    rw [hmin]
    have h3 : i + 1 - i = 1 := by omega
    rw [h3, List.drop_eq_getElem_cons h2, List.take_succ_cons, List.take_zero]
    have h4 : (1 : ℚ) ≤ ((alts.length - i : ℕ) : ℚ) := by
      exact_mod_cast Nat.one_le_iff_ne_zero.mpr (by omega)
    have h5 : ((1 : ℕ) : ℚ) ⊓ ((alts.length - i : ℕ) : ℚ) = 1 := by
      rw [Nat.cast_one]
      exact min_eq_left h4
    rw [h5]
    simp

end Fitbit

namespace Fitbit

theorem climbsGo_chain (l : List ℚ) : ∀ (prev start : ℚ),
    List.Chain' (fun a b => a < b) (prev :: l) →
    climbsGo true start prev prev l = [(start, l.getLastD prev)] := by
  induction l with
  | nil => intro prev start _; simp [climbsGo]
  | cons c rest ih =>
      intro prev start h
      rw [List.chain'_cons] at h
      obtain ⟨hpc, hrest⟩ := h
      simp only [climbsGo, if_pos hpc, if_true]
      rw [max_eq_right hpc.le, ih c start hrest, List.getLastD_cons]

theorem floatBody?_isSome (sg : ℚ) (cs : List Char) (h : numBody cs = true) :
    (floatBody? sg cs).isSome = true := by
  by_cases hA : (cs.dropWhile Char.isDigit).isEmpty = true
  · rw [numBody, if_pos hA] at h
    rw [floatBody?, if_pos hA, if_neg (by simp at h; simp [h])]
    rfl
  · by_cases hB : (cs.dropWhile Char.isDigit).headD ' ' = '.'
    · rw [numBody, if_neg hA, if_pos hB] at h
      simp only [Bool.and_eq_true] at h
      obtain ⟨hc, hd⟩ := h
      rw [floatBody?, if_neg hA, if_pos hB, if_neg]
      · rfl
      · simp only [Bool.not_eq_true'] at hc
        simp [hc, hd]
    · rw [numBody, if_neg hA, if_neg hB] at h
      exact absurd h (by simp)

theorem floatOfStr?_isSome (cs : List Char) (h : numOk cs = true) :
    (floatOfStr? cs).isSome = true := by
  rw [numOk] at h
  rw [floatOfStr?]
  split_ifs at h ⊢ with h1 h2
  · exact floatBody?_isSome 1 cs.tail h
  · exact floatBody?_isSome (-1) cs.tail h
  · exact floatBody?_isSome 1 cs h

theorem findAlts_numOk : ∀ (n : ℕ) (l : List Char), l.length ≤ n →
    ∀ x ∈ findAlts l, numOk x = true := by
  intro n
  induction n with
  | zero =>
      intro l hl x hx
      have hnil : l = [] := List.length_eq_zero.mp (Nat.le_zero.mp hl)
      subst hnil
      simp [findAlts] at hx
  | succ n ih =>
      intro l hl x hx
      match l with
      | [] => simp [findAlts] at hx
      | c :: rest =>
          rw [findAlts] at hx
          by_cases hopen : openTagChars.isPrefixOf (c :: rest) = true
          · rw [if_pos hopen] at hx
            by_cases hnum : (numOk (((c :: rest).drop openTagChars.length).takeWhile
                  (fun ch => ch ≠ '<')) &&
                closeTagChars.isPrefixOf (((c :: rest).drop openTagChars.length).dropWhile
                  (fun ch => ch ≠ '<'))) = true
            · rw [if_pos hnum] at hx
              simp only [Bool.and_eq_true] at hnum
              rcases List.mem_cons.mp hx with rfl | hx'
              · exact hnum.1
              · refine ih _ ?_ x hx'
                have h1 : (((c :: rest).drop openTagChars.length).dropWhile
                    (fun ch => ch ≠ '<')).length
                      ≤ ((c :: rest).drop openTagChars.length).length :=
                  (List.dropWhile_suffix _).length_le
                have h2 := List.length_drop openTagChars.length (c :: rest)
                have h3 := List.length_drop closeTagChars.length
                  (((c :: rest).drop openTagChars.length).dropWhile (fun ch => ch ≠ '<'))
                have h4 : openTagChars.length = 16 := rfl
                simp only [List.length_cons] at *
                omega
            · rw [if_neg hnum] at hx
              refine ih rest ?_ x hx
              simp only [List.length_cons] at hl
              omega
          · rw [if_neg hopen] at hx
            refine ih rest ?_ x hx
            simp only [List.length_cons] at hl
            omega

theorem mapM_float_isSome : ∀ (l : List (List Char)),
    (∀ x ∈ l, (floatOfStr? x).isSome = true) →
    ∃ qs : List ℚ, l.mapM floatOfStr? = some qs := by
  intro l
  induction l with
  | nil => exact fun _ => ⟨[], rfl⟩
  | cons x xs ihm =>
      intro hok
      obtain ⟨q, hq⟩ := Option.isSome_iff_exists.mp (hok x (List.mem_cons_self x xs))
      obtain ⟨qs, hqs⟩ := ihm (fun y hy => hok y (List.mem_cons_of_mem x hy))
      refine ⟨q :: qs, ?_⟩
      rw [List.mapM_cons, hq, hqs]
      rfl

theorem parseAlts_isSome (xml : String) : ∃ alts, parseAlts? xml = some alts :=
  mapM_float_isSome (findAlts xml.data)
    (fun x hx => floatOfStr?_isSome x (findAlts_numOk xml.data.length xml.data le_rfl x hx))

end Fitbit

namespace Fitbit

theorem searchStep_some (cases : List (String × ℚ)) (acc : Config × ℚ) (cfg : Config) :
    searchStep cases (some acc) cfg
      = some (if avgError cases cfg < acc.2 then (cfg, avgError cases cfg) else acc) := by
  rcases acc with ⟨bc, be⟩
  show (if avgError cases cfg < be then some (cfg, avgError cases cfg)
      else some (bc, be)) = _
  split_ifs <;> rfl

theorem searchBest_go (cases : List (String × ℚ)) (l : List Config) :
    ∀ acc, l.foldl (searchStep cases) (some acc) = some (searchGo cases acc l) := by
  induction l with
  | nil => intro acc; rfl
  | cons cfg rest ih =>
      intro acc
      rw [List.foldl_cons, searchStep_some, ih, searchGo]

theorem searchGo_min (cases : List (String × ℚ)) (l : List Config) :
    ∀ acc, (searchGo cases acc l).2 ≤ acc.2 ∧
      ∀ cfg ∈ l, (searchGo cases acc l).2 ≤ avgError cases cfg := by
  induction l with
  | nil => intro acc; exact ⟨le_rfl, by simp⟩
  | cons c rest ih =>
      intro acc
      rw [searchGo]
      by_cases hc : avgError cases c < acc.2
      · rw [if_pos hc]
        obtain ⟨h1, h2⟩ := ih (c, avgError cases c)
        refine ⟨le_trans h1 hc.le, ?_⟩
        intro cfg hcfg
        rcases List.mem_cons.mp hcfg with rfl | h
        · exact h1
        · exact h2 cfg h
      · rw [if_neg hc]
        obtain ⟨h1, h2⟩ := ih acc
        refine ⟨h1, ?_⟩
        intro cfg hcfg
        rcases List.mem_cons.mp hcfg with rfl | h
        · exact le_trans h1 (not_lt.mp hc)
        · exact h2 cfg h

theorem searchGo_first (cases : List (String × ℚ)) (l : List Config) :
    ∀ acc,
      (searchGo cases acc l = acc ∧ ∀ cfg ∈ l, ¬(avgError cases cfg < acc.2)) ∨
      (∃ pre post, l = pre ++ (searchGo cases acc l).1 :: post ∧
        (searchGo cases acc l).2 = avgError cases (searchGo cases acc l).1 ∧
        (searchGo cases acc l).2 < acc.2 ∧
        ∀ cfg ∈ pre, (searchGo cases acc l).2 < avgError cases cfg) := by
  induction l with
  | nil => intro acc; exact Or.inl ⟨rfl, by simp⟩
  | cons c rest ih =>
      intro acc
      rw [searchGo]
      by_cases hc : avgError cases c < acc.2
      · rw [if_pos hc]
        rcases ih (c, avgError cases c) with ⟨hr, _⟩ | ⟨pre, post, hl, h2, hlt, hpre⟩
        · refine Or.inr ⟨[], rest, ?_, ?_, ?_, by simp⟩
          · rw [hr]; rfl
          · rw [hr]
          · rw [hr]; exact hc
        · refine Or.inr ⟨c :: pre, post, ?_, h2, ?_, ?_⟩
          · rw [List.cons_append, ← hl]
          · exact lt_trans hlt hc
          · intro cfg hcfg
            rcases List.mem_cons.mp hcfg with rfl | h
            · exact hlt
            · exact hpre cfg h
      · rw [if_neg hc]
        rcases ih acc with ⟨hr, hall⟩ | ⟨pre, post, hl, h2, hlt, hpre⟩
        · refine Or.inl ⟨hr, ?_⟩
          intro cfg hcfg
          rcases List.mem_cons.mp hcfg with rfl | h
          · exact hc
          · exact hall cfg h
        · refine Or.inr ⟨c :: pre, post, ?_, h2, hlt, ?_⟩
          · rw [List.cons_append, ← hl]
          · intro cfg hcfg
            rcases List.mem_cons.mp hcfg with rfl | h
            · exact lt_of_lt_of_le hlt (not_lt.mp hc)
            · exact hpre cfg h

theorem mem_allConfigs (ws : List ℕ) (r1s t1s t2s t3s : List ℚ)
    (w : ℕ) (r1 t1 t2 t3 : ℚ) (hw : w ∈ ws) (hr1 : r1 ∈ r1s) (ht1 : t1 ∈ t1s)
    (ht2 : t2 ∈ t2s) (ht3 : t3 ∈ t3s) :
    (⟨w, r1, t1, t2, t3⟩ : Config) ∈ allConfigs ws r1s t1s t2s t3s := by
  simp only [allConfigs, List.mem_flatMap, List.mem_map]
  exact ⟨w, hw, r1, hr1, t1, ht1, t2, ht2, t3, ht3, rfl⟩

end Fitbit

namespace Fitbit

/-- C1, as stated (counterexample): the smoothing filter does NOT take the
half-open window `[i - W/2, i + W/2)` for every `W ≥ 1`; at the trace
`[0, 6]` with `W = 2` the code averages over the closed window
`[i - 1, i + 1]` and produces `[3, 3]`, while the spec's half-open window
produces `[0, 3]`. -/
theorem smoothing_halfopen_cex : smooth [0, 6] 2 ≠ smoothSpecHalfOpen [0, 6] 2 := by
  with_unfolding_all decide

/-- C1 (amended): for every trace of length ≥ 2 and window `W ≥ 1`, the
smoothing filter preserves length, element `i` is the arithmetic mean of the
raw samples whose indices lie in the closed interval
`[i - ⌊W/2⌋, i + ⌊W/2⌋]` clipped to the valid index range (truncated, not
padded, at the boundaries), and `W = 1` is the identity. -/
theorem smoothing_window_amended (alts : List ℚ) (W : ℕ)
    (h2 : 2 ≤ alts.length) (hW : 1 ≤ W) :
    (smooth alts W).length = alts.length ∧
    smooth alts W = smoothWindowInc alts W ∧
    smooth alts 1 = alts :=
  ⟨smooth_length alts W, smooth_eq_windowInc alts W, smooth_one alts⟩

/-- Witness for `smoothing_window_amended` at the trace `[10, 20, 30]`, `W = 4`. -/
theorem smoothing_window_amended_witness :
    2 ≤ ([10, 20, 30] : List ℚ).length ∧ 1 ≤ 4 ∧
    ((smooth [10, 20, 30] 4).length = ([10, 20, 30] : List ℚ).length ∧
      smooth [10, 20, 30] 4 = smoothWindowInc [10, 20, 30] 4 ∧
      smooth [10, 20, 30] 1 = [10, 20, 30]) :=
  ⟨by decide, by decide, smoothing_window_amended [10, 20, 30] 4 (by decide) (by decide)⟩

/-- C3: on the trace `[100, 105, 110, 103, 101, 112, 120]` with smoothing
window 1 and a single band of threshold 5 m (whatever the breakpoint), the
segmenter emits exactly the two climbs 100→110 (gain 10) and 101→120
(gain 19), both are counted, and the estimator returns 29 m. -/
theorem example_trace_threshold5 (r1 : ℚ) :
    climbs (smooth exampleTrace 1) = [(100, 110), (101, 120)] ∧
    countedClimbs 5 (climbs (smooth exampleTrace 1)) = [(100, 110), (101, 120)] ∧
    climbGain (100, 110) = 10 ∧ climbGain (101, 120) = 19 ∧
    elevationFromAlts exampleTrace 1 r1 5 5 5 = 29 := by
  refine ⟨?_, ?_, ?_, ?_, ?_⟩
  · rw [smooth_one]
    with_unfolding_all decide
  · rw [smooth_one]
    with_unfolding_all decide
  · with_unfolding_all decide
  · with_unfolding_all decide
  · rw [elevation_eq_countedSum exampleTrace 1 r1 5 5 5 (by decide),
      selectThreshold_const, smooth_one]
    with_unfolding_all decide

/-- C7: on the same trace with threshold 15 m, the first climb (gain 10) is
discarded wholesale (it is not among the counted climbs and contributes
nothing), the second climb (gain 19) is counted, and the estimator returns
exactly 19 m. -/
theorem example_trace_threshold15 (r1 : ℚ) :
    climbs (smooth exampleTrace 1) = [(100, 110), (101, 120)] ∧
    countedClimbs 15 (climbs (smooth exampleTrace 1)) = [(101, 120)] ∧
    elevationFromAlts exampleTrace 1 r1 15 15 15 = 19 := by
  refine ⟨?_, ?_, ?_⟩
  · rw [smooth_one]
    with_unfolding_all decide
  · rw [smooth_one]
    with_unfolding_all decide
  · rw [elevation_eq_countedSum exampleTrace 1 r1 15 15 15 (by decide),
      selectThreshold_const, smooth_one]
    with_unfolding_all decide

/-- C4: for every trace of length ≥ 2 and every configuration, the threshold
the estimator uses equals the spec's ordered band lookup applied to the
breakpoints `[range1, 100]`, the thresholds `[t1, t2, t3]`, and the
max-minus-min range of the RAW (unsmoothed) trace; and the estimator's result
is the sum of the gains of exactly the climbs whose gain is ≥ that selected
threshold. -/
theorem adaptive_threshold_band (alts : List ℚ) (W : ℕ) (r1 t1 t2 t3 : ℚ)
    (h : 2 ≤ alts.length) :
    selectThreshold alts r1 t1 t2 t3
        = bandLookup [r1, 100] [t1, t2, t3] (pyMax alts - pyMin alts) ∧
    elevationFromAlts alts W r1 t1 t2 t3
        = countedSum (bandLookup [r1, 100] [t1, t2, t3] (pyMax alts - pyMin alts))
            (climbs (smooth alts W)) := by
  have hsel : selectThreshold alts r1 t1 t2 t3
      = bandLookup [r1, 100] [t1, t2, t3] (pyMax alts - pyMin alts) := by
    simp only [selectThreshold, bandLookup, List.headD_cons]
  exact ⟨hsel, by rw [elevation_eq_countedSum alts W r1 t1 t2 t3 h, hsel]⟩

/-- Witness for `adaptive_threshold_band` at the trace `[0, 50]` with the
calibrated configuration (window 1, breakpoint 85, thresholds 9/10/14). -/
theorem adaptive_threshold_band_witness :
    2 ≤ ([0, 50] : List ℚ).length ∧
    (selectThreshold [0, 50] 85 9 10 14
        = bandLookup [85, 100] [9, 10, 14] (pyMax [0, 50] - pyMin [0, 50]) ∧
      elevationFromAlts [0, 50] 1 85 9 10 14
        = countedSum (bandLookup [85, 100] [9, 10, 14] (pyMax [0, 50] - pyMin [0, 50]))
            (climbs (smooth [0, 50] 1))) :=
  ⟨by decide, adaptive_threshold_band [0, 50] 1 85 9 10 14 (by decide)⟩

/-- C5: every trace with fewer than 2 samples (including the empty trace)
yields exactly 0 under every configuration; the estimator returns this value
normally (the guard is an ordinary `return 0.0`, not a raised fault). -/
theorem short_trace_zero (alts : List ℚ) (W : ℕ) (r1 t1 t2 t3 : ℚ)
    (h : alts.length < 2) : elevationFromAlts alts W r1 t1 t2 t3 = 0 := by
  rw [elevationFromAlts, if_pos (Or.inr h)]

/-- Witness for `short_trace_zero` at the one-sample trace `[7]`. -/
theorem short_trace_zero_witness :
    ([7] : List ℚ).length < 2 ∧ elevationFromAlts [7] 3 85 9 10 14 = 0 :=
  ⟨by decide, short_trace_zero [7] 3 85 9 10 14 (by decide)⟩

/-- C6: for a fixed trace, window and breakpoint, raising any of the per-band
threshold values never increases the total counted gain. -/
theorem threshold_monotone (alts : List ℚ) (W : ℕ) (r1 t1 t2 t3 u1 u2 u3 : ℚ)
    (h1 : t1 ≤ u1) (h2 : t2 ≤ u2) (h3 : t3 ≤ u3) :
    elevationFromAlts alts W r1 u1 u2 u3 ≤ elevationFromAlts alts W r1 t1 t2 t3 := by
  by_cases hg : alts = [] ∨ alts.length < 2
  · rw [elevationFromAlts, if_pos hg, elevationFromAlts, if_pos hg]
  · have hlen : 2 ≤ alts.length := by
      push_neg at hg
      omega
    rw [elevation_eq_countedSum alts W r1 u1 u2 u3 hlen,
      elevation_eq_countedSum alts W r1 t1 t2 t3 hlen]
    refine countedSum_anti _ _
      (selectThreshold_le alts r1 t1 t2 t3 u1 u2 u3 h1 h2 h3) _ ?_
    intro c hc
    have hpos := climbs_pos (smooth alts W) c hc
    simp only [climbGain]
    linarith

/-- Witness for `threshold_monotone`: raising all thresholds from 5 to 15 on
the worked-example trace. -/
theorem threshold_monotone_witness :
    (5 : ℚ) ≤ 15 ∧ (5 : ℚ) ≤ 15 ∧ (5 : ℚ) ≤ 15 ∧
    elevationFromAlts exampleTrace 1 1000 15 15 15
      ≤ elevationFromAlts exampleTrace 1 1000 5 5 5 :=
  ⟨by with_unfolding_all decide, by with_unfolding_all decide,
    by with_unfolding_all decide,
    threshold_monotone exampleTrace 1 1000 5 5 5 15 15 15
      (by with_unfolding_all decide) (by with_unfolding_all decide)
      (by with_unfolding_all decide)⟩

/-- C9: every climb the segmenter emits — whether closed by a descent or by
the end of the trace — has its peak strictly above its start, i.e. strictly
positive gain; climbs with gain ≤ 0 are never emitted. -/
theorem emitted_climbs_positive (alts : List ℚ) (W : ℕ) (c : ℚ × ℚ)
    (h : c ∈ climbs (smooth alts W)) : c.1 < c.2 :=
  climbs_pos (smooth alts W) c h

/-- Witness for `emitted_climbs_positive` on the trace `[1, 2, 1]`. -/
theorem emitted_climbs_positive_witness :
    ((1 : ℚ), (2 : ℚ)) ∈ climbs (smooth [1, 2, 1] 1) ∧ (1 : ℚ) < (2 : ℚ) :=
  ⟨by with_unfolding_all decide,
    emitted_climbs_positive [1, 2, 1] 1 (1, 2) (by with_unfolding_all decide)⟩

/-- C10: for every input string whatsoever, the `try:` bodies of
`elevation_with_params` and of `db_filler.py`'s `elevation_gain_from_tcx`
produce a value (no internal failure escapes), and the wrapped functions
return exactly that value — so both return normally with a numeric result on
every input, never propagating an exception. -/
theorem estimator_total_on_strings (xml : String) (W : ℕ) (r1 t1 t2 t3 : ℚ) :
    (∃ q : ℚ, elevationBody xml W r1 t1 t2 t3 = some q ∧
      elevation_with_params xml W r1 t1 t2 t3 = q) ∧
    (∃ q : ℚ, elevationGainBody xml = some q ∧ elevation_gain_from_tcx xml = q) := by
  obtain ⟨alts, halts⟩ := parseAlts_isSome xml
  have hb1 : elevationBody xml W r1 t1 t2 t3
      = some (elevationFromAlts alts W r1 t1 t2 t3) := by
    rw [elevationBody, halts]
    rfl
  have hb2 : elevationGainBody xml
      = some (if alts = [] then 0 else posDeltaGo 0 (alts.headD 0) alts.tail) := by
    rw [elevationGainBody, halts]
    rfl
  refine ⟨⟨_, hb1, ?_⟩, ⟨_, hb2, ?_⟩⟩
  · rw [elevation_with_params, hb1]
  · rw [elevation_gain_from_tcx, hb2]

end Fitbit

namespace Fitbit

/-- C8: for every strictly increasing trace of length ≥ 2 with smoothing
window 1 (identity smoothing), the segmenter emits exactly one climb spanning
the whole trace — start = first sample, peak = last sample — and whenever
`last - first` clears the selected threshold the estimator returns exactly
`last - first`. -/
theorem strict_increase_single_climb (l : List ℚ) (r1 t1 t2 t3 : ℚ)
    (h2 : 2 ≤ l.length) (hmono : List.Chain' (fun a b => a < b) l) :
    climbs (smooth l 1) = [(l.headD 0, l.getLastD 0)] ∧
    (selectThreshold l r1 t1 t2 t3 ≤ l.getLastD 0 - l.headD 0 →
      elevationFromAlts l 1 r1 t1 t2 t3 = l.getLastD 0 - l.headD 0) := by
  rcases l with _ | ⟨a, _ | ⟨b, rest⟩⟩
  · simp at h2
  · simp at h2
  · have hab : a < b := (List.chain'_cons.mp hmono).1
    have hchain : List.Chain' (fun x y => x < y) (b :: rest) :=
      (List.chain'_cons.mp hmono).2
    have hstep : climbs (a :: b :: rest) = climbsGo true a b b rest := by
      simp [climbs, climbsGo, hab]
    have hclimbs : climbs (a :: b :: rest)
        = [((a :: b :: rest).headD 0, (a :: b :: rest).getLastD 0)] := by
      rw [hstep, climbsGo_chain rest b a hchain, List.headD_cons,
        List.getLastD_cons, List.getLastD_cons]
    refine ⟨by rw [smooth_one]; exact hclimbs, ?_⟩
    intro hth
    rw [elevation_eq_countedSum _ _ _ _ _ _ (by simp), smooth_one, hclimbs,
      countedSum_cons, countedSum_nil]
    simp only [climbGain] at hth ⊢
    rw [if_pos hth, add_zero]

/-- Witness for `strict_increase_single_climb` at the strictly increasing
trace `[3, 7, 9]`. -/
theorem strict_increase_single_climb_witness :
    2 ≤ ([3, 7, 9] : List ℚ).length ∧
    List.Chain' (fun a b => a < b) ([3, 7, 9] : List ℚ) ∧
    (climbs (smooth [3, 7, 9] 1)
        = [(([3, 7, 9] : List ℚ).headD 0, ([3, 7, 9] : List ℚ).getLastD 0)] ∧
      (selectThreshold [3, 7, 9] 100 1 1 1
          ≤ ([3, 7, 9] : List ℚ).getLastD 0 - ([3, 7, 9] : List ℚ).headD 0 →
        elevationFromAlts [3, 7, 9] 1 100 1 1 1
          = ([3, 7, 9] : List ℚ).getLastD 0 - ([3, 7, 9] : List ℚ).headD 0)) :=
  ⟨by decide,
    List.chain'_cons.mpr ⟨by with_unfolding_all decide,
      List.chain'_cons.mpr ⟨by with_unfolding_all decide, List.Chain.nil⟩⟩,
    strict_increase_single_climb [3, 7, 9] 100 1 1 1 (by decide)
      (List.chain'_cons.mpr ⟨by with_unfolding_all decide,
        List.chain'_cons.mpr ⟨by with_unfolding_all decide, List.Chain.nil⟩⟩)⟩

/-- C2: for every nonempty labeled case set (nonzero references) and every
nonempty enumerated parameter space, the grid search evaluates the Cartesian
product in the source's fixed nesting order, scores each configuration by the
mean over the cases of the absolute signed percentage error
`(estimated − reference) / reference × 100`, and returns the configuration of
minimal mean absolute error, ties broken in favor of the first one
encountered: every configuration strictly before the returned one in the
enumeration has strictly larger error. -/
theorem calibration_first_min (cases : List (String × ℚ)) (ws : List ℕ)
    (r1s t1s t2s t3s : List ℚ) (hcases : cases ≠ [])
    (hrefs : ∀ tc ∈ cases, tc.2 ≠ 0)
    (hne : allConfigs ws r1s t1s t2s t3s ≠ []) :
    ∃ best err,
      searchBest cases (allConfigs ws r1s t1s t2s t3s) = some (best, err) ∧
      err = avgError cases best ∧
      (∀ cfg : Config, ∀ tc ∈ cases, caseError cfg tc
          = |(elevation_with_params tc.1 cfg.w cfg.r1 cfg.t1 cfg.t2 cfg.t3
            * (3.28084 : ℚ) - tc.2) / tc.2 * 100|) ∧
      (∀ cfg : Config, avgError cases cfg
          = (cases.map (caseError cfg)).sum / (cases.length : ℚ)) ∧
      (∀ w ∈ ws, ∀ r1 ∈ r1s, ∀ t1 ∈ t1s, ∀ t2 ∈ t2s, ∀ t3 ∈ t3s,
        err ≤ avgError cases ⟨w, r1, t1, t2, t3⟩) ∧
      ∃ pre post, allConfigs ws r1s t1s t2s t3s = pre ++ best :: post ∧
        ∀ cfg ∈ pre, err < avgError cases cfg := by
  rcases hAC : allConfigs ws r1s t1s t2s t3s with _ | ⟨c0, restC⟩
  · exact absurd hAC hne
  · have hfold : searchBest cases (c0 :: restC)
        = some (searchGo cases (c0, avgError cases c0) restC) := by
      rw [searchBest, List.foldl_cons,
        show searchStep cases none c0 = some (c0, avgError cases c0) from rfl]
      exact searchBest_go cases restC (c0, avgError cases c0)
    refine ⟨(searchGo cases (c0, avgError cases c0) restC).1,
      (searchGo cases (c0, avgError cases c0) restC).2, ?_, ?_, ?_, ?_, ?_, ?_⟩
    · rw [hfold]
    · rcases searchGo_first cases restC (c0, avgError cases c0) with
        ⟨hreq, _⟩ | ⟨_, _, _, hsnd, _, _⟩
      · rw [hreq]
      · exact hsnd
    · intro cfg tc _
      rw [caseError, abs_mul]
      norm_num
    · intro cfg
      rw [avgError, List.length_map]
    · intro w hw r1 hr1 t1 ht1 t2 ht2 t3 ht3
      have hmem := mem_allConfigs ws r1s t1s t2s t3s w r1 t1 t2 t3 hw hr1 ht1 ht2 ht3
      rw [hAC] at hmem
      rcases List.mem_cons.mp hmem with heq | hmemr
      · rw [heq]
        exact (searchGo_min cases restC (c0, avgError cases c0)).1
      · exact (searchGo_min cases restC (c0, avgError cases c0)).2 _ hmemr
    · rcases searchGo_first cases restC (c0, avgError cases c0) with
        ⟨hreq, _⟩ | ⟨pre, post, hl, _, hlt, hpre⟩
      · refine ⟨[], restC, ?_, by simp⟩
        rw [List.nil_append, hreq]
      · refine ⟨c0 :: pre, post, ?_, ?_⟩
        · conv_lhs => rw [hl]
          rw [List.cons_append]
        · intro cfg hcfg
          rcases List.mem_cons.mp hcfg with rfl | hmem2
          · exact hlt
          · exact hpre cfg hmem2

/-- Witness for `calibration_first_min`: a single labeled case with reference
1 and the one-point parameter grid (1, 85, 9, 10, 14). -/
theorem calibration_first_min_witness :
    ([("x", 1)] : List (String × ℚ)) ≠ [] ∧
    (∀ tc ∈ ([("x", 1)] : List (String × ℚ)), tc.2 ≠ 0) ∧
    allConfigs [1] [85] [9] [10] [14] ≠ [] ∧
    (∃ best err,
      searchBest [("x", 1)] (allConfigs [1] [85] [9] [10] [14]) = some (best, err) ∧
      err = avgError [("x", 1)] best ∧
      (∀ cfg : Config, ∀ tc ∈ ([("x", 1)] : List (String × ℚ)), caseError cfg tc
          = |(elevation_with_params tc.1 cfg.w cfg.r1 cfg.t1 cfg.t2 cfg.t3
            * (3.28084 : ℚ) - tc.2) / tc.2 * 100|) ∧
      (∀ cfg : Config, avgError [("x", 1)] cfg
          = (([("x", 1)] : List (String × ℚ)).map (caseError cfg)).sum
            / (([("x", 1)] : List (String × ℚ)).length : ℚ)) ∧
      (∀ w ∈ [1], ∀ r1 ∈ ([85] : List ℚ), ∀ t1 ∈ ([9] : List ℚ),
        ∀ t2 ∈ ([10] : List ℚ), ∀ t3 ∈ ([14] : List ℚ),
        err ≤ avgError [("x", 1)] ⟨w, r1, t1, t2, t3⟩) ∧
      ∃ pre post, allConfigs [1] [85] [9] [10] [14] = pre ++ best :: post ∧
        ∀ cfg ∈ pre, err < avgError [("x", 1)] cfg) :=
  ⟨by decide, by with_unfolding_all decide, by with_unfolding_all decide,
    calibration_first_min [("x", 1)] [1] [85] [9] [10] [14] (by decide)
      (by with_unfolding_all decide) (by with_unfolding_all decide)⟩

end Fitbit
